import Mathlib

/-!
ModelGuard trust-scoring and lineage engine: a shallow embedding of the
scoring core and lineage graph of the ModelGuard artifact registry,
together with proofs of the stated correctness properties.

The scoring engine and lineage engine themselves are not present in the
repository sources (the sources contain their documentation, the lambda
deployment scripts and the dashboard); the definitions below marked
"Modelled from the spec" therefore follow the specification text, while
the dashboard declarations (the ModelRate interface, the lineage page
rendering, the js-runner lambda) are embedded directly from the sources.
-/

namespace ModelGuard

/-- Modelled from the spec: artifact kinds (model | dataset | code).  The
scoring core is absent from the repository sources; this enumeration
follows the data model section of the specification and the
`artifact_type` union declared in the dashboard sources. -/
inductive ArtifactType
  | model
  | dataset
  | code
deriving DecidableEq, Repr

/-- Modelled from the spec: the immutable input to scoring, absent from the
repository sources.  Identifier, type, declared size in bytes, license
identifier, source URL, optional code/dataset links and optional parent
model identifier. -/
structure ArtifactSnapshot where
  identifier : String
  artifactType : ArtifactType
  sizeBytes : Nat
  licenseId : String
  sourceUrl : String
  codeLink : Option String
  datasetLink : Option String
  parentModel : Option String
deriving DecidableEq, Repr

/-- Modelled from the spec: the fixed enumerated set of 11 metric
dimensions, matching the 11 concrete metric classes listed in the
repository implementation notes. -/
inductive MetricName
  | availability
  | busFactor
  | codeQuality
  | datasetQuality
  | license
  | performanceClaims
  | rampUp
  | size
  | reproducibility
  | reviewedness
  | treescore
deriving DecidableEq, Repr

/-- Modelled from the spec: the fixed dimension order in which sub-scores
are collected into a ScoreReport, independent of completion order. -/
def metricNames : List MetricName :=
  [.availability, .busFactor, .codeQuality, .datasetQuality, .license,
   .performanceClaims, .rampUp, .size, .reproducibility, .reviewedness,
   .treescore]

/-- Modelled from the spec: one metric evaluation outcome, a metric name, a
numeric value clamped to [0,1] and a latency in milliseconds. -/
structure SubScore where
  name : MetricName
  value : ℚ
  latencyMs : Nat
deriving DecidableEq, Repr

/-- Clamp a rational into the unit interval. -/
def clamp01 (q : ℚ) : ℚ := max 0 (min 1 q)

theorem clamp01_nonneg (q : ℚ) : 0 ≤ clamp01 q := le_max_left 0 _

theorem clamp01_le_one (q : ℚ) : clamp01 q ≤ 1 := by
  unfold clamp01
  rcases le_total 1 q with h | h
  · simp [min_le_left]
  · exact max_le (by norm_num) (min_le_left 1 q)

theorem clamp01_of_mem (q : ℚ) (h0 : 0 ≤ q) (h1 : q ≤ 1) : clamp01 q = q := by
  unfold clamp01
  rw [min_eq_right h1, max_eq_right h0]

/-- Modelled from the spec: the four device classes of the size dimension;
the names and capacity thresholds follow the dashboard sources (Pi 0.5GB,
Nano 1GB, PC 16GB, Server 64GB). -/
inductive DeviceClass
  | pi
  | nano
  | pc
  | server
deriving DecidableEq, Repr, Fintype

/-- Modelled from the spec: the device classes in their fixed order. -/
def deviceClasses : List DeviceClass := [.pi, .nano, .pc, .server]

/-- Modelled from the spec: per-class capacity thresholds in megabytes,
from the capacities shown in the dashboard sources (0.5GB, 1GB, 16GB,
64GB, decimal units as in the specification scenario 16GB = 16000MB). -/
def capacityMB : DeviceClass → ℚ
  | .pi => 500
  | .nano => 1000
  | .pc => 16000
  | .server => 64000

/-- Declared artifact size in (decimal) megabytes. -/
def ArtifactSnapshot.sizeMB (s : ArtifactSnapshot) : ℚ :=
  (s.sizeBytes : ℚ) / 1000000

/-- Modelled from the spec: per-device-class size sub-score, the scoring
function min(1, capacity / size) clamped to [0,1], with size 0 treated as
a 1.0 score (trivially fits). -/
def sizeClassScore (dc : DeviceClass) (s : ArtifactSnapshot) : ℚ :=
  if s.sizeBytes = 0 then 1 else clamp01 (min 1 (capacityMB dc / s.sizeMB))

/-- Modelled from the spec: value used for the "size" dimension of the Net
Score, the mean of the four device-class scores unless a specific class is
requested by the caller. -/
def sizeDimScore (req : Option DeviceClass) (s : ArtifactSnapshot) : ℚ :=
  match req with
  | some dc => sizeClassScore dc s
  | none => (deviceClasses.map (fun dc => sizeClassScore dc s)).sum / 4

theorem sizeClassScore_nonneg (dc : DeviceClass) (s : ArtifactSnapshot) :
    0 ≤ sizeClassScore dc s := by
  unfold sizeClassScore
  split
  · norm_num
  · exact clamp01_nonneg _

theorem sizeClassScore_le_one (dc : DeviceClass) (s : ArtifactSnapshot) :
    sizeClassScore dc s ≤ 1 := by
  unfold sizeClassScore
  split
  · norm_num
  · exact clamp01_le_one _

theorem sizeDimScore_nonneg (req : Option DeviceClass) (s : ArtifactSnapshot) :
    0 ≤ sizeDimScore req s := by
  unfold sizeDimScore
  match req with
  | some dc => exact sizeClassScore_nonneg dc s
  | none =>
      simp only [deviceClasses, List.map_cons, List.map_nil, List.sum_cons,
        List.sum_nil, add_zero]
      have h1 := sizeClassScore_nonneg .pi s
      have h2 := sizeClassScore_nonneg .nano s
      have h3 := sizeClassScore_nonneg .pc s
      have h4 := sizeClassScore_nonneg .server s
      positivity

theorem sizeDimScore_le_one (req : Option DeviceClass) (s : ArtifactSnapshot) :
    sizeDimScore req s ≤ 1 := by
  unfold sizeDimScore
  match req with
  | some dc => exact sizeClassScore_le_one dc s
  | none =>
      simp only [deviceClasses, List.map_cons, List.map_nil, List.sum_cons,
        List.sum_nil, add_zero]
      have h1 := sizeClassScore_le_one .pi s
      have h2 := sizeClassScore_le_one .nano s
      have h3 := sizeClassScore_le_one .pc s
      have h4 := sizeClassScore_le_one .server s
      linarith

/-- Modelled from the spec: a metric evaluator is a pure function of the
snapshot.  The evaluator bodies are absent from the repository sources
(the implementation notes document them as stubs); a raw outcome of
`none` models an evaluator that cannot produce a score (a thrown
exception, a network error, missing data, or a timeout). -/
structure MetricEvaluator where
  name : MetricName
  raw : ArtifactSnapshot → Option ℚ
  rawLatencyMs : ArtifactSnapshot → Nat

/-- Modelled from the spec: an evaluation clamps a successful raw value
into [0,1]; a failure is absorbed locally and contributes the neutral
score 0.0 together with the recorded latency, never an exception. -/
def MetricEvaluator.evaluate (m : MetricEvaluator) (s : ArtifactSnapshot) :
    SubScore :=
  match m.raw s with
  | some v => ⟨m.name, clamp01 v, m.rawLatencyMs s⟩
  | none => ⟨m.name, 0, m.rawLatencyMs s⟩

/-- Modelled from the spec: the registered evaluator for one dimension of
an evaluator family (raw scoring functions and latency functions indexed
by metric name). -/
def evaluatorFor (raw : MetricName → ArtifactSnapshot → Option ℚ)
    (lat : MetricName → ArtifactSnapshot → Nat) (n : MetricName) :
    MetricEvaluator :=
  ⟨n, raw n, lat n⟩

/-- Modelled from the spec: the sub-score one dimension contributes. -/
def subScoreFor (raw : MetricName → ArtifactSnapshot → Option ℚ)
    (lat : MetricName → ArtifactSnapshot → Nat) (n : MetricName)
    (s : ArtifactSnapshot) : SubScore :=
  (evaluatorFor raw lat n).evaluate s

/-- Modelled from the spec: the fixed 11-entry weighting table.  The
sources document the table only as a placeholder, and the specification
leaves the concrete weights open, constrained to be fixed configuration
summing to 1.0; the model fixes the uniform table 1/11 per dimension. -/
def weightTable : MetricName → ℚ := fun _ => 1 / 11

/-- Modelled from the spec: the Net Score, the weighted sum of the
sub-scores under the fixed weighting table. -/
def weightedSum (subs : List SubScore) : ℚ :=
  (subs.map (fun ss => weightTable ss.name * ss.value)).sum

/-- Modelled from the spec: the aggregate of all SubScores for one
artifact, the derived Net Score, and the total wall-clock latency. -/
structure ScoreReport where
  subScores : List SubScore
  netScore : ℚ
  totalLatencyMs : Nat
deriving DecidableEq, Repr

namespace ScoreAggregator

/-- Modelled from the spec: the results of the concurrent fan-out, listed
in completion order (the schedule); each dimension runs against the same
immutable snapshot. -/
def collectResults (sched : List MetricName)
    (raw : MetricName → ArtifactSnapshot → Option ℚ)
    (lat : MetricName → ArtifactSnapshot → Nat) (s : ArtifactSnapshot) :
    List (MetricName × SubScore) :=
  sched.map (fun n => (n, subScoreFor raw lat n s))

/-- First collected result for a dimension, if any. -/
def firstResult (n : MetricName) :
    List (MetricName × SubScore) → Option SubScore
  | [] => none
  | (m, ss) :: rest => if m = n then some ss else firstResult n rest

/-- Modelled from the spec: sub-scores are assembled into the report in
the fixed dimension order regardless of completion order. -/
def assemble (sched : List MetricName)
    (raw : MetricName → ArtifactSnapshot → Option ℚ)
    (lat : MetricName → ArtifactSnapshot → Nat) (s : ArtifactSnapshot) :
    List SubScore :=
  metricNames.filterMap (fun n => firstResult n (collectResults sched raw lat s))

/-- Modelled from the spec: scoring under an explicit completion schedule;
the report collects the assembled sub-scores, the weighted-sum Net Score,
and the wall-clock span of the fan-out (the slowest dimension, since the
evaluators run in parallel). -/
def scoreWith (sched : List MetricName)
    (raw : MetricName → ArtifactSnapshot → Option ℚ)
    (lat : MetricName → ArtifactSnapshot → Nat) (s : ArtifactSnapshot) :
    ScoreReport :=
  let subs := assemble sched raw lat s
  ⟨subs, weightedSum subs, (subs.map SubScore.latencyMs).foldr Nat.max 0⟩

/-- Modelled from the spec: `score(snapshot) -> ScoreReport`, dispatching
all 11 dimensions. -/
def score (raw : MetricName → ArtifactSnapshot → Option ℚ)
    (lat : MetricName → ArtifactSnapshot → Nat) (s : ArtifactSnapshot) :
    ScoreReport :=
  scoreWith metricNames raw lat s

end ScoreAggregator

/-- Modelled from the spec: the synchronous scoring entry point exposed to
callers; the registry fetch is out of scope, so the snapshot is the
argument. -/
def computeScore (raw : MetricName → ArtifactSnapshot → Option ℚ)
    (lat : MetricName → ArtifactSnapshot → Nat) (s : ArtifactSnapshot) :
    ScoreReport :=
  ScoreAggregator.score raw lat s

/-- Modelled from the spec: the registered evaluator family of the
deployed system, in which the size dimension is computed from the declared
byte size over the device classes (optionally for one requested class),
and the remaining dimensions delegate to a base family. -/
def systemRaw (base : MetricName → ArtifactSnapshot → Option ℚ)
    (req : Option DeviceClass) (n : MetricName) (s : ArtifactSnapshot) :
    Option ℚ :=
  if n = .size then some (sizeDimScore req s) else base n s

theorem subScoreFor_eval (raw : MetricName → ArtifactSnapshot → Option ℚ)
    (lat : MetricName → ArtifactSnapshot → Nat) (n : MetricName)
    (s : ArtifactSnapshot) :
    subScoreFor raw lat n s =
      match raw n s with
      | some v => ⟨n, clamp01 v, lat n s⟩
      | none => ⟨n, 0, lat n s⟩ := rfl

theorem subScoreFor_name (raw : MetricName → ArtifactSnapshot → Option ℚ)
    (lat : MetricName → ArtifactSnapshot → Nat) (n : MetricName)
    (s : ArtifactSnapshot) : (subScoreFor raw lat n s).name = n := by
  rw [subScoreFor_eval]
  rcases h : raw n s with _ | v <;> simp

theorem subScoreFor_latency (raw : MetricName → ArtifactSnapshot → Option ℚ)
    (lat : MetricName → ArtifactSnapshot → Nat) (n : MetricName)
    (s : ArtifactSnapshot) : (subScoreFor raw lat n s).latencyMs = lat n s := by
  rw [subScoreFor_eval]
  rcases h : raw n s with _ | v <;> simp

theorem subScoreFor_value_nonneg
    (raw : MetricName → ArtifactSnapshot → Option ℚ)
    (lat : MetricName → ArtifactSnapshot → Nat) (n : MetricName)
    (s : ArtifactSnapshot) : 0 ≤ (subScoreFor raw lat n s).value := by
  rw [subScoreFor_eval]
  rcases h : raw n s with _ | v
  · simp
  · simpa using clamp01_nonneg v

theorem subScoreFor_value_le_one
    (raw : MetricName → ArtifactSnapshot → Option ℚ)
    (lat : MetricName → ArtifactSnapshot → Nat) (n : MetricName)
    (s : ArtifactSnapshot) : (subScoreFor raw lat n s).value ≤ 1 := by
  rw [subScoreFor_eval]
  rcases h : raw n s with _ | v
  · simp
  · simpa using clamp01_le_one v

theorem subScoreFor_of_failure
    (raw : MetricName → ArtifactSnapshot → Option ℚ)
    (lat : MetricName → ArtifactSnapshot → Nat) (n : MetricName)
    (s : ArtifactSnapshot) (h : raw n s = none) :
    subScoreFor raw lat n s = ⟨n, 0, lat n s⟩ := by
  rw [subScoreFor_eval, h]

namespace ScoreAggregator

theorem firstResult_collect (sched : List MetricName)
    (raw : MetricName → ArtifactSnapshot → Option ℚ)
    (lat : MetricName → ArtifactSnapshot → Nat) (s : ArtifactSnapshot)
    (n : MetricName) :
    firstResult n (collectResults sched raw lat s) =
      if n ∈ sched then some (subScoreFor raw lat n s) else none := by
  induction sched with
  | nil => simp [collectResults, firstResult]
  | cons m rest ih =>
      simp only [collectResults, List.map_cons, firstResult] at *
      by_cases h : m = n
      · subst h
        simp
      · rw [if_neg h, ih]
        by_cases hr : n ∈ rest
        · simp [hr, List.mem_cons]
        · simp [hr, List.mem_cons, Ne.symm h]

theorem assemble_of_superset (sched : List MetricName)
    (raw : MetricName → ArtifactSnapshot → Option ℚ)
    (lat : MetricName → ArtifactSnapshot → Nat) (s : ArtifactSnapshot)
    (hsub : ∀ n, n ∈ metricNames → n ∈ sched) :
    assemble sched raw lat s =
      metricNames.map (fun n => subScoreFor raw lat n s) := by
  unfold assemble
  have key : ∀ (l : List MetricName), (∀ n, n ∈ l → n ∈ sched) →
      l.filterMap (fun n => firstResult n (collectResults sched raw lat s)) =
        l.map (fun n => subScoreFor raw lat n s) := by
    intro l
    induction l with
    | nil => intro _; rfl
    | cons m rest ih =>
        intro hl
        have hm : m ∈ sched := hl m (List.mem_cons_self m rest)
        rw [List.filterMap_cons, List.map_cons, firstResult_collect, if_pos hm,
          ih (fun n hn => hl n (List.mem_cons_of_mem m hn))]
  exact key metricNames hsub

theorem score_subScores (raw : MetricName → ArtifactSnapshot → Option ℚ)
    (lat : MetricName → ArtifactSnapshot → Nat) (s : ArtifactSnapshot) :
    (score raw lat s).subScores =
      metricNames.map (fun n => subScoreFor raw lat n s) := by
  unfold score scoreWith
  exact assemble_of_superset metricNames raw lat s (fun n hn => hn)

theorem scoreWith_eq_score (sched : List MetricName)
    (raw : MetricName → ArtifactSnapshot → Option ℚ)
    (lat : MetricName → ArtifactSnapshot → Nat) (s : ArtifactSnapshot)
    (hperm : sched.Perm metricNames) :
    scoreWith sched raw lat s = score raw lat s := by
  unfold score scoreWith
  rw [assemble_of_superset sched raw lat s
    (fun n hn => hperm.mem_iff.mpr hn),
    assemble_of_superset metricNames raw lat s (fun n hn => hn)]

end ScoreAggregator

theorem weightTable_sum_one : (metricNames.map weightTable).sum = 1 := by
  simp [metricNames, weightTable]
  norm_num

theorem weightedSum_nonneg (subs : List SubScore)
    (h : ∀ ss ∈ subs, 0 ≤ ss.value) : 0 ≤ weightedSum subs := by
  unfold weightedSum
  induction subs with
  | nil => simp
  | cons ss rest ih =>
      simp only [List.map_cons, List.sum_cons]
      have h1 : 0 ≤ weightTable ss.name * ss.value :=
        mul_nonneg (by unfold weightTable; norm_num)
          (h ss (List.mem_cons_self ss rest))
      have h2 := ih (fun t ht => h t (List.mem_cons_of_mem ss ht))
      simp only [weightedSum] at h2
      linarith

theorem weightedSum_le_weights (subs : List SubScore)
    (h : ∀ ss ∈ subs, ss.value ≤ 1) :
    weightedSum subs ≤ (subs.map (fun ss => weightTable ss.name)).sum := by
  unfold weightedSum
  induction subs with
  | nil => simp
  | cons ss rest ih =>
      simp only [List.map_cons, List.sum_cons]
      have h1 : weightTable ss.name * ss.value ≤ weightTable ss.name :=
        mul_le_of_le_one_right (by unfold weightTable; norm_num)
          (h ss (List.mem_cons_self ss rest))
      have h2 := ih (fun t ht => h t (List.mem_cons_of_mem ss ht))
      simp only [weightedSum] at h2
      linarith

theorem score_weights_sum (raw : MetricName → ArtifactSnapshot → Option ℚ)
    (lat : MetricName → ArtifactSnapshot → Nat) (s : ArtifactSnapshot) :
    ((ScoreAggregator.score raw lat s).subScores.map
      (fun ss => weightTable ss.name)).sum = 1 := by
  rw [ScoreAggregator.score_subScores, List.map_map]
  have : ((fun ss => weightTable ss.name) ∘ fun n => subScoreFor raw lat n s) =
      weightTable := by
    funext n
    simp [Function.comp, subScoreFor_name]
  rw [this, weightTable_sum_one]

theorem MetricEvaluator.evaluate_value_nonneg (m : MetricEvaluator)
    (s : ArtifactSnapshot) : 0 ≤ (m.evaluate s).value := by
  unfold MetricEvaluator.evaluate
  rcases h : m.raw s with _ | v
  · simp
  · simpa using clamp01_nonneg v

theorem MetricEvaluator.evaluate_value_le_one (m : MetricEvaluator)
    (s : ArtifactSnapshot) : (m.evaluate s).value ≤ 1 := by
  unfold MetricEvaluator.evaluate
  rcases h : m.raw s with _ | v
  · simp
  · simpa using clamp01_le_one v

theorem mem_metricNames (n : MetricName) : n ∈ metricNames := by
  cases n <;> simp [metricNames]

theorem score_subScores_bounds
    (raw : MetricName → ArtifactSnapshot → Option ℚ)
    (lat : MetricName → ArtifactSnapshot → Nat) (s : ArtifactSnapshot) :
    ∀ ss ∈ (ScoreAggregator.score raw lat s).subScores,
      0 ≤ ss.value ∧ ss.value ≤ 1 := by
  intro ss hss
  rw [ScoreAggregator.score_subScores] at hss
  obtain ⟨n, _, rfl⟩ := List.mem_map.mp hss
  exact ⟨subScoreFor_value_nonneg raw lat n s, subScoreFor_value_le_one raw lat n s⟩

theorem score_netScore_eq (raw : MetricName → ArtifactSnapshot → Option ℚ)
    (lat : MetricName → ArtifactSnapshot → Nat) (s : ArtifactSnapshot) :
    (ScoreAggregator.score raw lat s).netScore =
      weightedSum (ScoreAggregator.score raw lat s).subScores := rfl

/-- C1: for every artifact snapshot and every evaluator family, the Net
Score of the report produced by ScoreAggregator.score is exactly the
weighted sum of the 11 sub-scores under the fixed 11-entry weighting table
`weightTable` (a configuration constant of the model, not an argument of
`score`), and the table weights sum to 1 exactly, hence within the stated
floating-point tolerance. -/
theorem netScore_weighted_sum (raw : MetricName → ArtifactSnapshot → Option ℚ)
    (lat : MetricName → ArtifactSnapshot → Nat) (s : ArtifactSnapshot) :
    (ScoreAggregator.score raw lat s).netScore =
      ((ScoreAggregator.score raw lat s).subScores.map
        (fun ss => weightTable ss.name * ss.value)).sum ∧
    (metricNames.map weightTable).sum = 1 ∧
    metricNames.length = 11 :=
  ⟨rfl, weightTable_sum_one, rfl⟩

/-- C2: every SubScore value produced by any metric evaluator lies in
[0,1] (clamped before being returned), every sub-score of a score report
lies in [0,1], and the derived Net Score lies in [0,1]. -/
theorem subscores_in_unit_interval (m : MetricEvaluator)
    (raw : MetricName → ArtifactSnapshot → Option ℚ)
    (lat : MetricName → ArtifactSnapshot → Nat) (s : ArtifactSnapshot) :
    (0 ≤ (m.evaluate s).value ∧ (m.evaluate s).value ≤ 1) ∧
    (∀ ss ∈ (computeScore raw lat s).subScores,
      0 ≤ ss.value ∧ ss.value ≤ 1) ∧
    (0 ≤ (computeScore raw lat s).netScore ∧
      (computeScore raw lat s).netScore ≤ 1) := by
  refine ⟨⟨m.evaluate_value_nonneg s, m.evaluate_value_le_one s⟩,
    score_subScores_bounds raw lat s, ?_, ?_⟩
  · rw [computeScore, score_netScore_eq]
    exact weightedSum_nonneg _ (fun ss hss => (score_subScores_bounds raw lat s ss hss).1)
  · rw [computeScore, score_netScore_eq]
    calc weightedSum (ScoreAggregator.score raw lat s).subScores
        ≤ ((ScoreAggregator.score raw lat s).subScores.map
            (fun ss => weightTable ss.name)).sum :=
          weightedSum_le_weights _
            (fun ss hss => (score_subScores_bounds raw lat s ss hss).2)
      _ = 1 := score_weights_sum raw lat s

/-- C3: for every snapshot and every evaluator family, a dimension whose
evaluator cannot produce a score (raw outcome `none`, modelling a thrown
exception, network error or missing data) contributes the neutral score
0.0 with its recorded latency; no failure propagates, and computeScore
always returns a full report covering all 11 dimensions in fixed order. -/
theorem metric_failure_absorbed
    (raw : MetricName → ArtifactSnapshot → Option ℚ)
    (lat : MetricName → ArtifactSnapshot → Nat) (s : ArtifactSnapshot) :
    ((computeScore raw lat s).subScores.map SubScore.name = metricNames) ∧
    ((computeScore raw lat s).subScores.length = 11) ∧
    (∀ n : MetricName, raw n s = none →
      (⟨n, 0, lat n s⟩ : SubScore) ∈ (computeScore raw lat s).subScores) := by
  refine ⟨?_, ?_, ?_⟩
  · rw [computeScore, ScoreAggregator.score_subScores, List.map_map]
    have h : (SubScore.name ∘ fun n => subScoreFor raw lat n s) = id :=
      funext fun n => subScoreFor_name raw lat n s
    rw [h, List.map_id]
  · rw [computeScore, ScoreAggregator.score_subScores, List.length_map]
    rfl
  · intro n hn
    rw [computeScore, ScoreAggregator.score_subScores]
    exact List.mem_map.mpr
      ⟨n, mem_metricNames n, subScoreFor_of_failure raw lat n s hn⟩

/-- C7-witness helper inputs: a concrete snapshot and evaluator family. -/
def sampleSnapshot : ArtifactSnapshot :=
  { identifier := "bert-base"
    artifactType := .model
    sizeBytes := 500000000
    licenseId := "apache-2.0"
    sourceUrl := "https://example.com/bert-base"
    codeLink := none
    datasetLink := none
    parentModel := none }

/-- Evaluator family returning 0.5 for every dimension, matching the
placeholder scores of the documented metric stubs. -/
def halfRaw : MetricName → ArtifactSnapshot → Option ℚ := fun _ _ => some (1 / 2)

/-- Evaluator family in which every evaluator fails. -/
def failRaw : MetricName → ArtifactSnapshot → Option ℚ := fun _ _ => none

/-- Constant latency family. -/
def unitLat : MetricName → ArtifactSnapshot → Nat := fun _ _ => 7

/-- C7: scoring is deterministic and idempotent as a two-run property: the
report is independent of the completion schedule of the concurrent
fan-out (any permutation of the 11 dimensions yields the report of the
canonical run), and two separate computeScore calls on identical snapshots
yield identical (hence byte-identical once serialized) reports. -/
theorem computeScore_deterministic
    (raw : MetricName → ArtifactSnapshot → Option ℚ)
    (lat : MetricName → ArtifactSnapshot → Nat) (sched : List MetricName)
    (s s2 : ArtifactSnapshot) (hperm : sched.Perm metricNames)
    (hid : s = s2) :
    ScoreAggregator.scoreWith sched raw lat s = computeScore raw lat s ∧
    computeScore raw lat s = computeScore raw lat s2 :=
  ⟨ScoreAggregator.scoreWith_eq_score sched raw lat s hperm, by rw [hid]⟩

/-- C7 witness: the reversed completion schedule is a permutation of the
canonical dimension order, and scoring the sample snapshot under it yields
the canonical report. -/
theorem computeScore_deterministic_witness :
    (metricNames.reverse.Perm metricNames ∧ sampleSnapshot = sampleSnapshot) ∧
    (ScoreAggregator.scoreWith metricNames.reverse halfRaw unitLat
        sampleSnapshot = computeScore halfRaw unitLat sampleSnapshot ∧
      computeScore halfRaw unitLat sampleSnapshot =
        computeScore halfRaw unitLat sampleSnapshot) :=
  ⟨⟨List.reverse_perm metricNames, rfl⟩,
    computeScore_deterministic halfRaw unitLat metricNames.reverse
      sampleSnapshot sampleSnapshot (List.reverse_perm metricNames) rfl⟩

theorem subScoreFor_systemRaw_size
    (base : MetricName → ArtifactSnapshot → Option ℚ)
    (req : Option DeviceClass) (lat : MetricName → ArtifactSnapshot → Nat)
    (s : ArtifactSnapshot) :
    subScoreFor (systemRaw base req) lat .size s =
      ⟨.size, sizeDimScore req s, lat .size s⟩ := by
  rw [subScoreFor_eval]
  have hsys : systemRaw base req .size s = some (sizeDimScore req s) := by
    unfold systemRaw
    rw [if_pos rfl]
  rw [hsys]
  simp only [clamp01_of_mem _ (sizeDimScore_nonneg req s) (sizeDimScore_le_one req s)]

/-- C5: the size sub-score of a device class with capacity C for an
artifact of declared size S is min(1, C/S) clamped to [0,1], with S = 0
treated as a 1.0 score; a requested class contributes its own score, and
otherwise the size dimension of the Net Score is the mean of the four
device-class scores, which enters the report unchanged (it already lies in
[0,1]). -/
theorem sizeScore_spec (dc : DeviceClass) (s : ArtifactSnapshot)
    (req : Option DeviceClass)
    (base : MetricName → ArtifactSnapshot → Option ℚ)
    (lat : MetricName → ArtifactSnapshot → Nat) :
    (s.sizeBytes = 0 → sizeClassScore dc s = 1) ∧
    (s.sizeBytes ≠ 0 →
      sizeClassScore dc s = clamp01 (min 1 (capacityMB dc / s.sizeMB))) ∧
    (∀ d : DeviceClass, sizeDimScore (some d) s = sizeClassScore d s) ∧
    (sizeDimScore none s =
      (sizeClassScore .pi s + sizeClassScore .nano s + sizeClassScore .pc s +
        sizeClassScore .server s) / 4) ∧
    ((⟨.size, sizeDimScore req s, lat .size s⟩ : SubScore) ∈
      (computeScore (systemRaw base req) lat s).subScores) := by
  refine ⟨?_, ?_, fun d => rfl, ?_, ?_⟩
  · intro h
    unfold sizeClassScore
    rw [if_pos h]
  · intro h
    unfold sizeClassScore
    rw [if_neg h]
  · simp [sizeDimScore, deviceClasses]
    ring
  · rw [computeScore, ScoreAggregator.score_subScores]
    exact List.mem_map.mpr
      ⟨.size, mem_metricNames .size, subScoreFor_systemRaw_size base req lat s⟩

/-- C5 witness: the sample 500MB model snapshot has nonzero declared size;
for the desktop class min(1, 16000/500) = 1, and the mean size dimension
appears in the report. -/
theorem sizeScore_spec_witness :
    (sampleSnapshot.sizeBytes ≠ 0 →
      sizeClassScore .pc sampleSnapshot =
        clamp01 (min 1 (capacityMB .pc / sampleSnapshot.sizeMB))) ∧
    ((⟨.size, sizeDimScore none sampleSnapshot, 7⟩ : SubScore) ∈
      (computeScore (systemRaw halfRaw none) unitLat
        sampleSnapshot).subScores) :=
  ⟨(sizeScore_spec .pc sampleSnapshot none halfRaw unitLat).2.1,
    (sizeScore_spec .pc sampleSnapshot none halfRaw unitLat).2.2.2.2⟩

/-- Modelled from the spec: the lineage graph state, node records (one
artifact identifier with its type) plus directed parent-to-child edges;
the milestone report lists lineage tracking as planned and not started, so
the graph follows the specification contract. -/
structure LineageGraph where
  nodes : List (String × ArtifactType)
  edges : List (String × String)
deriving DecidableEq, Repr

namespace LineageGraph

/-- Modelled from the spec: the initial, empty registry graph. -/
def emptyGraph : LineageGraph := ⟨[], []⟩

/-- Parents of a node, in edge-insertion order. -/
def parentsOf (G : LineageGraph) (x : String) : List String :=
  (G.edges.filter (fun e => decide (e.2 = x))).map Prod.fst

/-- Children of a node, in edge-insertion order. -/
def childrenOf (G : LineageGraph) (x : String) : List String :=
  (G.edges.filter (fun e => decide (e.1 = x))).map Prod.snd

/-- One enqueue step of the breadth-first traversal: a newly seen node is
appended; a visited or already queued node is skipped. -/
def pushNew (visited acc : List String) (y : String) : List String :=
  if y ∈ visited ∨ y ∈ acc then acc else acc ++ [y]

/-- Modelled from the spec: the next breadth-first frontier, the adjacent
nodes of the current frontier not yet visited, each taken once, in
deterministic order. -/
def newFrontier (adj : String → List String) (visited frontier : List String) :
    List String :=
  (frontier.flatMap adj).foldl (pushNew visited) []

/-- Modelled from the spec: fuelled breadth-first traversal emitting the
frontiers level by level while tracking visited nodes. -/
def bfsAux (adj : String → List String) :
    Nat → List String → List String → List String
  | 0, _, _ => []
  | fuel + 1, visited, frontier =>
      let next := newFrontier adj visited frontier
      next ++ bfsAux adj fuel (visited ++ next) next

/-- Modelled from the spec: deterministic breadth-first traversal starting
from the queried node (which is pre-visited and not emitted). -/
def traverseFrom (adj : String → List String) (bound : Nat) (x : String) :
    List String :=
  bfsAux adj bound [x] [x]

/-- Modelled from the spec: `ancestors(id) -> ordered finite sequence`,
breadth-first toward roots. -/
def ancestors (G : LineageGraph) (x : String) : List String :=
  traverseFrom (parentsOf G) (G.edges.length + 1) x

/-- Modelled from the spec: `descendants(id) -> ordered finite sequence`,
breadth-first toward leaves. -/
def descendants (G : LineageGraph) (x : String) : List String :=
  traverseFrom (childrenOf G) (G.edges.length + 1) x

/-- Modelled from the spec: idempotent node insertion, Absent to Present
only; a present node is never modified. -/
def addNode (G : LineageGraph) (id : String) (ty : ArtifactType) :
    LineageGraph :=
  if G.nodes.any (fun nd => decide (nd.1 = id)) then G
  else ⟨G.nodes ++ [(id, ty)], G.edges⟩

/-- Modelled from the spec: outcome of `addEdge(parent, child)`. -/
inductive AddEdgeResult
  | success
  | cycleRejected
deriving DecidableEq, Repr

/-- Modelled from the spec: atomic all-or-nothing edge insertion; a
self-loop is rejected unconditionally, and the cycle pre-check rejects the
edge when the parent already appears in descendants(child); on rejection
the graph is returned unchanged. -/
def addEdge (G : LineageGraph) (parent child : String) :
    AddEdgeResult × LineageGraph :=
  if parent = child then (.cycleRejected, G)
  else if parent ∈ descendants G child then (.cycleRejected, G)
  else (.success, ⟨G.nodes, G.edges ++ [(parent, child)]⟩)

/-- Reachability along an adjacency function (reflexive-transitive). -/
inductive Reaches (adj : String → List String) : String → String → Prop
  | refl (x : String) : Reaches adj x x
  | tail {x y z : String} : Reaches adj x y → z ∈ adj y → Reaches adj x z

/-- Reachability along at least one edge. -/
inductive ReachesPlus (adj : String → List String) : String → String → Prop
  | single {x z : String} : z ∈ adj x → ReachesPlus adj x z
  | tail {x y z : String} : ReachesPlus adj x y → z ∈ adj y →
      ReachesPlus adj x z

/-- Modelled from the spec: the acyclicity invariant, no node reaches
itself along a nonempty chain of edges. -/
def Acyclic (G : LineageGraph) : Prop :=
  ∀ a, ¬ ReachesPlus (childrenOf G) a a

/-- Graph states reachable from the empty registry through the public
mutating operations. -/
inductive ReachableGraph : LineageGraph → Prop
  | empty : ReachableGraph emptyGraph
  | node {G : LineageGraph} {id : String} {ty : ArtifactType} :
      ReachableGraph G → ReachableGraph (addNode G id ty)
  | edge {G : LineageGraph} {p c : String} :
      ReachableGraph G → ReachableGraph (addEdge G p c).2

theorem mem_parentsOf {G : LineageGraph} {x p : String} :
    p ∈ parentsOf G x ↔ (p, x) ∈ G.edges := by
  unfold parentsOf
  simp only [List.mem_map, List.mem_filter, decide_eq_true_eq]
  constructor
  · rintro ⟨⟨a, b⟩, ⟨hmem, hb⟩, rfl⟩
    rw [← hb]
    exact hmem
  · intro h
    exact ⟨(p, x), ⟨h, rfl⟩, rfl⟩

theorem mem_childrenOf {G : LineageGraph} {x c : String} :
    c ∈ childrenOf G x ↔ (x, c) ∈ G.edges := by
  unfold childrenOf
  simp only [List.mem_map, List.mem_filter, decide_eq_true_eq]
  constructor
  · rintro ⟨⟨a, b⟩, ⟨hmem, ha⟩, rfl⟩
    rw [← ha]
    exact hmem
  · intro h
    exact ⟨(x, c), ⟨h, rfl⟩, rfl⟩

theorem mem_pushNew {visited acc : List String} {y a : String} :
    a ∈ pushNew visited acc y ↔
      a ∈ acc ∨ (a = y ∧ y ∉ visited ∧ y ∉ acc) := by
  unfold pushNew
  by_cases h : y ∈ visited ∨ y ∈ acc
  · rw [if_pos h]
    constructor
    · exact Or.inl
    · rintro (ha | ⟨rfl, hv, hacc⟩)
      · exact ha
      · rcases h with h | h
        · exact absurd h hv
        · exact absurd h hacc
  · rw [if_neg h]
    push_neg at h
    simp only [List.mem_append, List.mem_singleton]
    constructor
    · rintro (ha | rfl)
      · exact Or.inl ha
      · exact Or.inr ⟨rfl, h.1, h.2⟩
    · rintro (ha | ⟨rfl, _, _⟩)
      · exact Or.inl ha
      · exact Or.inr rfl

theorem mem_foldl_pushNew (visited : List String) :
    ∀ (ys acc : List String) (a : String),
      a ∈ ys.foldl (pushNew visited) acc ↔
        a ∈ acc ∨ (a ∈ ys ∧ a ∉ visited) := by
  intro ys
  induction ys with
  | nil =>
      intro acc a
      simp
  | cons y ys ih =>
      intro acc a
      rw [List.foldl_cons, ih, mem_pushNew]
      constructor
      · rintro ((ha | ⟨rfl, hv, _⟩) | ⟨hys, hv⟩)
        · exact Or.inl ha
        · exact Or.inr ⟨List.mem_cons_self a ys, hv⟩
        · exact Or.inr ⟨List.mem_cons_of_mem y hys, hv⟩
      · rintro (ha | ⟨hmem, hv⟩)
        · exact Or.inl (Or.inl ha)
        · rcases List.mem_cons.mp hmem with rfl | hys
          · by_cases hacc : a ∈ acc
            · exact Or.inl (Or.inl hacc)
            · exact Or.inl (Or.inr ⟨rfl, hv, hacc⟩)
          · exact Or.inr ⟨hys, hv⟩

theorem nodup_foldl_pushNew (visited : List String) :
    ∀ (ys acc : List String), acc.Nodup →
      (ys.foldl (pushNew visited) acc).Nodup := by
  intro ys
  induction ys with
  | nil =>
      intro acc h
      exact h
  | cons y ys ih =>
      intro acc h
      rw [List.foldl_cons]
      apply ih
      unfold pushNew
      by_cases hy : y ∈ visited ∨ y ∈ acc
      · rw [if_pos hy]
        exact h
      · rw [if_neg hy]
        push_neg at hy
        refine List.Nodup.append h (List.nodup_singleton y) ?_
        intro a ha hay
        rw [List.mem_singleton] at hay
        subst hay
        exact hy.2 ha

theorem mem_newFrontier {adj : String → List String}
    {visited frontier : List String} {a : String} :
    a ∈ newFrontier adj visited frontier ↔
      (∃ f ∈ frontier, a ∈ adj f) ∧ a ∉ visited := by
  unfold newFrontier
  rw [mem_foldl_pushNew]
  simp [List.mem_flatMap]

theorem nodup_newFrontier {adj : String → List String}
    {visited frontier : List String} :
    (newFrontier adj visited frontier).Nodup :=
  nodup_foldl_pushNew visited _ [] List.nodup_nil

theorem bfsAux_frontier_nil (adj : String → List String) :
    ∀ fuel (visited : List String), bfsAux adj fuel visited [] = [] := by
  intro fuel
  induction fuel with
  | zero =>
      intro visited
      rfl
  | succ k ih =>
      intro visited
      have hnf : newFrontier adj visited [] = [] := rfl
      simp only [bfsAux, hnf, List.nil_append, List.append_nil]
      exact ih visited

theorem bfs_not_mem_visited (adj : String → List String) :
    ∀ fuel (visited frontier : List String) (a : String),
      a ∈ bfsAux adj fuel visited frontier → a ∉ visited := by
  intro fuel
  induction fuel with
  | zero =>
      intro _ _ a h
      simp [bfsAux] at h
  | succ k ih =>
      intro visited frontier a h
      simp only [bfsAux] at h
      rw [List.mem_append] at h
      rcases h with h | h
      · exact (mem_newFrontier.mp h).2
      · intro hv
        exact ih _ _ a h (List.mem_append.mpr (Or.inl hv))

theorem bfs_append_nodup (adj : String → List String) :
    ∀ fuel (visited frontier : List String), visited.Nodup →
      (visited ++ bfsAux adj fuel visited frontier).Nodup := by
  intro fuel
  induction fuel with
  | zero =>
      intro v _ h
      simpa [bfsAux] using h
  | succ k ih =>
      intro visited frontier h
      simp only [bfsAux]
      rw [← List.append_assoc]
      apply ih
      refine List.Nodup.append h nodup_newFrontier ?_
      intro a ha han
      exact (mem_newFrontier.mp han).2 ha

theorem traverseFrom_nodup (adj : String → List String) (bound : Nat)
    (x : String) : (traverseFrom adj bound x).Nodup :=
  (bfs_append_nodup adj bound [x] [x] (List.nodup_singleton x)).of_append_right

theorem bfs_sound (adj : String → List String) (x : String) :
    ∀ fuel (visited frontier : List String),
      (∀ f ∈ frontier, Reaches adj x f) →
      ∀ a ∈ bfsAux adj fuel visited frontier, Reaches adj x a := by
  intro fuel
  induction fuel with
  | zero =>
      intro _ _ _ a h
      simp [bfsAux] at h
  | succ k ih =>
      intro visited frontier hf a ha
      simp only [bfsAux] at ha
      rw [List.mem_append] at ha
      have hnext : ∀ b ∈ newFrontier adj visited frontier, Reaches adj x b := by
        intro b hb
        obtain ⟨⟨f, hfmem, hbf⟩, _⟩ := mem_newFrontier.mp hb
        exact Reaches.tail (hf f hfmem) hbf
      rcases ha with ha | ha
      · exact hnext a ha
      · exact ih _ _ hnext a ha

theorem length_filter_mono {α : Type} (U : List α) (p q : α → Bool)
    (himp : ∀ u, q u = true → p u = true) :
    (U.filter q).length ≤ (U.filter p).length := by
  induction U with
  | nil => simp
  | cons u U ih =>
      by_cases hq : q u = true
      · rw [List.filter_cons_of_pos hq, List.filter_cons_of_pos (himp u hq)]
        simpa using ih
      · rw [List.filter_cons_of_neg (by simpa using hq)]
        by_cases hp : p u = true
        · rw [List.filter_cons_of_pos hp]
          exact Nat.le_succ_of_le ih
        · rw [List.filter_cons_of_neg (by simpa using hp)]
          exact ih

theorem length_filter_lt {α : Type} (U : List α) (p q : α → Bool)
    (himp : ∀ u, q u = true → p u = true) (y : α) (hyU : y ∈ U)
    (hyp : p y = true) (hyq : q y = false) :
    (U.filter q).length < (U.filter p).length := by
  induction U with
  | nil => cases hyU
  | cons u U ih =>
      rcases List.mem_cons.mp hyU with rfl | hyU2
      · rw [List.filter_cons_of_pos hyp, List.filter_cons_of_neg (by simp [hyq])]
        exact Nat.lt_succ_of_le (length_filter_mono U p q himp)
      · by_cases hq : q u = true
        · rw [List.filter_cons_of_pos hq, List.filter_cons_of_pos (himp u hq)]
          simpa using ih hyU2
        · rw [List.filter_cons_of_neg (by simpa using hq)]
          by_cases hp : p u = true
          · rw [List.filter_cons_of_pos hp]
            exact Nat.lt_succ_of_lt (ih hyU2)
          · rw [List.filter_cons_of_neg (by simpa using hp)]
            exact ih hyU2

/-- A node set closed under the adjacency function. -/
def ClosedUnder (adj : String → List String) (V : List String) : Prop :=
  ∀ v ∈ V, ∀ a ∈ adj v, a ∈ V

theorem bfs_closed (adj : String → List String) (U : List String)
    (hU : ∀ v a, a ∈ adj v → a ∈ U) :
    ∀ fuel (visited frontier : List String),
      (∀ f ∈ frontier, f ∈ visited) →
      (∀ v ∈ visited, v ∉ frontier → ∀ a ∈ adj v, a ∈ visited) →
      (U.filter (fun u => decide (u ∉ visited))).length < fuel →
      ClosedUnder adj (visited ++ bfsAux adj fuel visited frontier) := by
  intro fuel
  induction fuel with
  | zero =>
      intro _ _ _ _ h
      exact absurd h (Nat.not_lt_zero _)
  | succ k ih =>
      intro visited frontier hvf hclosed hfuel
      simp only [bfsAux]
      by_cases hnext : newFrontier adj visited frontier = []
      · rw [hnext, List.nil_append, bfsAux_frontier_nil adj k, List.append_nil]
        intro v hv a hav
        by_cases hvfront : v ∈ frontier
        · by_contra hna
          have hmem : a ∈ newFrontier adj visited frontier :=
            mem_newFrontier.mpr ⟨⟨v, hvfront, hav⟩, hna⟩
          rw [hnext] at hmem
          cases hmem
        · exact hclosed v hv hvfront a hav
      · rw [← List.append_assoc]
        apply ih (visited ++ newFrontier adj visited frontier)
          (newFrontier adj visited frontier)
        · intro f hf
          exact List.mem_append.mpr (Or.inr hf)
        · intro v hv hnv a hav
          rcases List.mem_append.mp hv with hv1 | hv2
          · by_cases hvfront : v ∈ frontier
            · by_cases hva : a ∈ visited
              · exact List.mem_append.mpr (Or.inl hva)
              · exact List.mem_append.mpr
                  (Or.inr (mem_newFrontier.mpr ⟨⟨v, hvfront, hav⟩, hva⟩))
            · exact List.mem_append.mpr (Or.inl (hclosed v hv1 hvfront a hav))
          · exact absurd hv2 hnv
        · obtain ⟨y, hy⟩ := List.exists_mem_of_ne_nil _ hnext
          obtain ⟨⟨f, hf, hyf⟩, hyv⟩ := mem_newFrontier.mp hy
          have hyU : y ∈ U := hU f y hyf
          have hlt := length_filter_lt U
            (fun u => decide (u ∉ visited))
            (fun u => decide (u ∉ visited ++ newFrontier adj visited frontier))
            (by
              intro u hu
              rw [decide_eq_true_eq] at hu ⊢
              intro hmem
              exact hu (List.mem_append.mpr (Or.inl hmem)))
            y hyU
            (by rw [decide_eq_true_eq]; exact hyv)
            (by
              rw [decide_eq_false_iff_not]
              intro hcon
              exact hcon (List.mem_append.mpr (Or.inr hy)))
          omega

theorem reaches_trans {adj : String → List String} {x y z : String}
    (h1 : Reaches adj x y) (h2 : Reaches adj y z) : Reaches adj x z := by
  induction h2 with
  | refl => exact h1
  | tail _ hz ih => exact Reaches.tail ih hz

theorem reaches_mem_closed {adj : String → List String} {V : List String}
    (hcl : ClosedUnder adj V) {x a : String} (hx : x ∈ V)
    (h : Reaches adj x a) : a ∈ V := by
  induction h with
  | refl => exact hx
  | tail _ hz ih => exact hcl _ ih _ hz

theorem mem_traverseFrom (adj : String → List String) (U : List String)
    (hU : ∀ v a, a ∈ adj v → a ∈ U) (bound : Nat)
    (hbound : U.length < bound) (x a : String) :
    a ∈ traverseFrom adj bound x ↔ Reaches adj x a ∧ a ≠ x := by
  constructor
  · intro h
    refine ⟨bfs_sound adj x bound [x] [x] ?_ a h, ?_⟩
    · intro f hf
      rw [List.mem_singleton] at hf
      rw [hf]
      exact Reaches.refl x
    · intro hax
      have hnv := bfs_not_mem_visited adj bound [x] [x] a h
      rw [hax] at hnv
      exact hnv (List.mem_singleton_self x)
  · rintro ⟨hr, hne⟩
    have hcl : ClosedUnder adj ([x] ++ traverseFrom adj bound x) := by
      apply bfs_closed adj U hU bound [x] [x]
      · intro f hf
        exact hf
      · intro v hv hnv
        exact absurd hv hnv
      · calc (U.filter (fun u => decide (u ∉ [x]))).length
            ≤ U.length := List.length_filter_le _ U
          _ < bound := hbound
    have hmem := reaches_mem_closed hcl
      (List.mem_append.mpr (Or.inl (List.mem_singleton_self x))) hr
    rcases List.mem_append.mp hmem with h1 | h2
    · rw [List.mem_singleton] at h1
      exact absurd h1 hne
    · exact h2

theorem mem_ancestors (G : LineageGraph) (x a : String) :
    a ∈ ancestors G x ↔ Reaches (parentsOf G) x a ∧ a ≠ x := by
  unfold ancestors
  apply mem_traverseFrom (parentsOf G) (G.edges.map Prod.fst)
  · intro v b hb
    exact List.mem_map.mpr ⟨(b, v), mem_parentsOf.mp hb, rfl⟩
  · rw [List.length_map]
    exact Nat.lt_succ_self _

theorem mem_descendants (G : LineageGraph) (x a : String) :
    a ∈ descendants G x ↔ Reaches (childrenOf G) x a ∧ a ≠ x := by
  unfold descendants
  apply mem_traverseFrom (childrenOf G) (G.edges.map Prod.snd)
  · intro v b hb
    exact List.mem_map.mpr ⟨(v, b), mem_childrenOf.mp hb, rfl⟩
  · rw [List.length_map]
    exact Nat.lt_succ_self _

theorem reachesPlus_to_reaches {adj : String → List String} {x y : String}
    (h : ReachesPlus adj x y) : Reaches adj x y := by
  induction h with
  | single hz => exact Reaches.tail (Reaches.refl _) hz
  | tail _ hz ih => exact Reaches.tail ih hz

theorem reaches_of_extended {adj adjExt : String → List String}
    {p c : String}
    (hadj : ∀ x b, b ∈ adjExt x ↔ b ∈ adj x ∨ (x = p ∧ b = c)) {u v : String}
    (h : Reaches adjExt u v) :
    Reaches adj u v ∨ (Reaches adj u p ∧ Reaches adj c v) := by
  induction h with
  | refl => exact Or.inl (Reaches.refl _)
  | tail _ hz ih =>
      rcases (hadj _ _).mp hz with hz2 | ⟨hp2, hc2⟩
      · rcases ih with ih | ⟨ih1, ih2⟩
        · exact Or.inl (Reaches.tail ih hz2)
        · exact Or.inr ⟨ih1, Reaches.tail ih2 hz2⟩
      · rcases ih with ih | ⟨ih1, _⟩
        · refine Or.inr ⟨?_, ?_⟩
          · rw [← hp2]
            exact ih
          · rw [hc2]
            exact Reaches.refl _
        · refine Or.inr ⟨ih1, ?_⟩
          rw [hc2]
          exact Reaches.refl _

theorem reachesPlus_of_extended {adj adjExt : String → List String}
    {p c : String}
    (hadj : ∀ x b, b ∈ adjExt x ↔ b ∈ adj x ∨ (x = p ∧ b = c)) {u v : String}
    (h : ReachesPlus adjExt u v) :
    ReachesPlus adj u v ∨ (Reaches adj u p ∧ Reaches adj c v) := by
  induction h with
  | single hz =>
      rcases (hadj _ _).mp hz with hz2 | ⟨hp2, hc2⟩
      · exact Or.inl (ReachesPlus.single hz2)
      · refine Or.inr ⟨?_, ?_⟩
        · rw [← hp2]
          exact Reaches.refl _
        · rw [hc2]
          exact Reaches.refl _
  | tail _ hz ih =>
      rcases (hadj _ _).mp hz with hz2 | ⟨hp2, hc2⟩
      · rcases ih with ih | ⟨ih1, ih2⟩
        · exact Or.inl (ReachesPlus.tail ih hz2)
        · exact Or.inr ⟨ih1, Reaches.tail ih2 hz2⟩
      · rcases ih with ih | ⟨ih1, _⟩
        · refine Or.inr ⟨?_, ?_⟩
          · rw [← hp2]
            exact reachesPlus_to_reaches ih
          · rw [hc2]
            exact Reaches.refl _
        · refine Or.inr ⟨ih1, ?_⟩
          rw [hc2]
          exact Reaches.refl _

theorem childrenOf_extended (N : List (String × ArtifactType))
    (E : List (String × String)) (p c : String) :
    ∀ x b, b ∈ childrenOf ⟨N, E ++ [(p, c)]⟩ x ↔
      b ∈ childrenOf ⟨N, E⟩ x ∨ (x = p ∧ b = c) := by
  intro x b
  rw [mem_childrenOf, mem_childrenOf]
  show (x, b) ∈ E ++ [(p, c)] ↔ (x, b) ∈ E ∨ (x = p ∧ b = c)
  rw [List.mem_append, List.mem_singleton, Prod.mk.injEq]

theorem acyclic_insert {G : LineageGraph} {p c : String} (hG : Acyclic G)
    (hnr : ¬ Reaches (childrenOf G) c p) :
    Acyclic ⟨G.nodes, G.edges ++ [(p, c)]⟩ := by
  intro a ha
  rcases reachesPlus_of_extended (childrenOf_extended G.nodes G.edges p c) ha
    with h | ⟨h1, h2⟩
  · exact hG a h
  · exact hnr (reaches_trans h2 h1)

theorem acyclic_of_adj_nil {adj : String → List String}
    (h : ∀ v, adj v = []) : ∀ a b, ¬ ReachesPlus adj a b := by
  intro a b hr
  induction hr with
  | single hz =>
      rw [h] at hz
      cases hz
  | tail _ _ ih => exact ih

theorem addNode_edges (G : LineageGraph) (id : String) (ty : ArtifactType) :
    (addNode G id ty).edges = G.edges := by
  unfold addNode
  split <;> rfl

theorem childrenOf_congr {G H : LineageGraph} (h : G.edges = H.edges) :
    childrenOf G = childrenOf H := by
  funext x
  unfold childrenOf
  rw [h]

theorem reachable_acyclic : ∀ {H : LineageGraph}, ReachableGraph H →
    Acyclic H := by
  intro H h
  induction h with
  | empty => exact fun a ha => acyclic_of_adj_nil (fun v => rfl) a a ha
  | node hG ih =>
      rename_i G id ty
      intro a ha
      rw [childrenOf_congr (addNode_edges G id ty)] at ha
      exact ih a ha
  | edge hG ih =>
      rename_i G p c
      by_cases h1 : p = c
      · simp only [addEdge, if_pos h1]
        exact ih
      · by_cases h2 : p ∈ descendants G c
        · simp only [addEdge, if_neg h1, if_pos h2]
          exact ih
        · simp only [addEdge, if_neg h1, if_neg h2]
          apply acyclic_insert ih
          intro hr
          exact h2 ((mem_descendants G c p).mpr ⟨hr, h1⟩)

end LineageGraph

end ModelGuard

namespace ModelGuard
namespace LineageGraph

/-- The diamond lineage: A is a parent of B and of C, and both B and C are
parents of D. -/
def diamondGraph : LineageGraph :=
  ⟨[], [("A", "B"), ("A", "C"), ("B", "D"), ("C", "D")]⟩

/-- C4: every reachable lineage-graph state is acyclic; addEdge answers
CycleRejected exactly when the new edge would close a cycle (the self-loop
parent = child included), and on rejection the returned graph is exactly
the input graph (atomic all-or-nothing insertion); in particular inserting
(A→B) and then (B→A) rejects the second call and leaves the graph
unchanged from before it. -/
theorem lineage_acyclic_invariant (G : LineageGraph) (p c : String) :
    ((addEdge G p c).1 = .cycleRejected ↔
      p = c ∨ Reaches (childrenOf G) c p) ∧
    ((addEdge G p c).1 = .cycleRejected → (addEdge G p c).2 = G) ∧
    (addEdge G p p = (.cycleRejected, G)) ∧
    (∀ H, ReachableGraph H → Acyclic H) ∧
    ((addEdge emptyGraph "A" "B").1 = .success ∧
      (addEdge (addEdge emptyGraph "A" "B").2 "B" "A").1 = .cycleRejected ∧
      (addEdge (addEdge emptyGraph "A" "B").2 "B" "A").2 =
        (addEdge emptyGraph "A" "B").2) := by
  refine ⟨?_, ?_, ?_, fun H h => reachable_acyclic h, by decide⟩
  · unfold addEdge
    by_cases h1 : p = c
    · rw [if_pos h1]
      exact iff_of_true rfl (Or.inl h1)
    · rw [if_neg h1]
      by_cases h2 : p ∈ descendants G c
      · rw [if_pos h2]
        exact iff_of_true rfl (Or.inr ((mem_descendants G c p).mp h2).1)
      · rw [if_neg h2]
        apply iff_of_false
        · intro h
          cases h
        · rintro (h | h)
          · exact h1 h
          · exact h2 ((mem_descendants G c p).mpr ⟨h, h1⟩)
  · unfold addEdge
    by_cases h1 : p = c
    · rw [if_pos h1]
      exact fun _ => rfl
    · rw [if_neg h1]
      by_cases h2 : p ∈ descendants G c
      · rw [if_pos h2]
        exact fun _ => rfl
      · rw [if_neg h2]
        intro h
        cases h
  · unfold addEdge
    rw [if_pos rfl]

/-- C4 witness: at the empty graph a self-loop on a concrete node is
rejected with the graph unchanged, and the empty reachable state is
acyclic. -/
theorem lineage_acyclic_invariant_witness :
    addEdge emptyGraph "M" "M" = (.cycleRejected, emptyGraph) ∧
    Acyclic emptyGraph :=
  ⟨(lineage_acyclic_invariant emptyGraph "M" "M").2.2.1,
    (lineage_acyclic_invariant emptyGraph "M" "M").2.2.2.1
      emptyGraph ReachableGraph.empty⟩

/-- C6: ancestors and descendants are finite sequences produced by the
deterministic breadth-first traversal from the queried node; they list
exactly the nodes properly reachable along parent (resp. child) edges,
each exactly once (no duplicates) no matter how many paths reach it; the
ancestors of a node with no parents form the empty sequence, and in the
diamond A→B, A→C, B→D, C→D the ancestors of D are B, C, A, each exactly
once. -/
theorem ancestors_bfs_spec (G : LineageGraph) (x : String) :
    (ancestors G x).Nodup ∧
    (descendants G x).Nodup ∧
    (∀ a, a ∈ ancestors G x ↔ Reaches (parentsOf G) x a ∧ a ≠ x) ∧
    (∀ a, a ∈ descendants G x ↔ Reaches (childrenOf G) x a ∧ a ≠ x) ∧
    (parentsOf G x = [] → ancestors G x = []) ∧
    ancestors diamondGraph "D" = ["B", "C", "A"] := by
  refine ⟨traverseFrom_nodup _ _ _, traverseFrom_nodup _ _ _,
    mem_ancestors G x, mem_descendants G x, ?_, by decide⟩
  intro hp
  unfold ancestors traverseFrom
  have hnf : newFrontier (parentsOf G) [x] [x] = [] := by
    unfold newFrontier
    rw [show ([x].flatMap (parentsOf G)) = parentsOf G x by simp, hp]
    rfl
  simp only [bfsAux, hnf, List.nil_append, List.append_nil]
  exact bfsAux_frontier_nil _ _ _

/-- C6 witness: in the diamond graph the node A has no parents, and its
ancestor sequence is empty. -/
theorem ancestors_bfs_spec_witness :
    parentsOf diamondGraph "A" = [] ∧ ancestors diamondGraph "A" = [] :=
  ⟨by decide, (ancestors_bfs_spec diamondGraph "A").2.2.2.2.1 (by decide)⟩

end LineageGraph

/-- Key names of the ModelRate interface declared in the dashboard API
sources: net_score, availability, bus_factor, code_quality,
dataset_quality, license, performance_claims, ramp_up, size_pi, size_nano,
size_pc, size_server, treescore. -/
def modelRateKeys : List String :=
  ["net_score", "availability", "bus_factor", "code_quality",
   "dataset_quality", "license", "performance_claims", "ramp_up",
   "size_pi", "size_nano", "size_pc", "size_server", "treescore"]

/-- Device-class name fragment used in the size keys of the dashboard
sources. -/
def deviceClassKey : DeviceClass → String
  | .pi => "pi"
  | .nano => "nano"
  | .pc => "pc"
  | .server => "server"

/-- JSON keys a metric dimension contributes under the stable snake_case
naming of the dashboard contract; the size dimension contributes one key
per device class. -/
def metricKeys : MetricName → List String
  | .availability => ["availability"]
  | .busFactor => ["bus_factor"]
  | .codeQuality => ["code_quality"]
  | .datasetQuality => ["dataset_quality"]
  | .license => ["license"]
  | .performanceClaims => ["performance_claims"]
  | .rampUp => ["ramp_up"]
  | .size => deviceClasses.map (fun dc => "size_" ++ deviceClassKey dc)
  | .reproducibility => ["reproducibility"]
  | .reviewedness => ["reviewedness"]
  | .treescore => ["treescore"]

/-- C8 counterexample: the ModelRate interface declared in the dashboard
sources has no key for the reproducibility metric (nor for reviewedness),
so it is not the case that every one of the 11 metric names contributes a
key to the serialized score-report contract. -/
theorem modelRate_missing_metric_keys :
    ¬ (∀ m ∈ metricNames, ∀ k ∈ metricKeys m, k ∈ modelRateKeys) := by
  decide

/-- C8 (amended): the ModelRate wire contract has stable, pairwise
distinct key names: a net_score key, one key per metric for the eight
metrics availability, bus_factor, code_quality, dataset_quality, license,
performance_claims, ramp_up and treescore, and one size key per device
class (size_pi, size_nano, size_pc, size_server); the reproducibility and
reviewedness dimensions contribute no key. -/
theorem modelRate_keys_amended :
    modelRateKeys.Nodup ∧
    "net_score" ∈ modelRateKeys ∧
    (∀ m ∈ metricNames, m ≠ .reproducibility → m ≠ .reviewedness →
      ∀ k ∈ metricKeys m, k ∈ modelRateKeys) ∧
    (∀ dc : DeviceClass, ("size_" ++ deviceClassKey dc) ∈ modelRateKeys) ∧
    "reproducibility" ∉ modelRateKeys ∧
    "reviewedness" ∉ modelRateKeys := by
  decide

/-- C8 witness: the bus-factor metric is neither reproducibility nor
reviewedness, and its single key bus_factor is in the contract. -/
theorem modelRate_keys_amended_witness :
    MetricName.busFactor ∈ metricNames ∧
    "bus_factor" ∈ metricKeys .busFactor ∧
    "bus_factor" ∈ modelRateKeys :=
  ⟨by decide, by decide,
    modelRate_keys_amended.2.2.1 .busFactor (by decide) (by decide) (by decide)
      "bus_factor" (by decide)⟩

/-- Outcomes of the js-runner lambda handler: the two guard errors thrown
before anything executes, a failure of the executed code, and the
`ok: true` resolution. -/
inductive JsRunnerOutcome
  | errorRequired
  | errorTooLarge
  | errorExecution
  | okTrue
deriving DecidableEq, Repr

/-- Shallow embedding of the js-runner lambda handler
(src/lambdas/js_runner.js): the event's js_code field is an optional
string (`none` models an absent, null or undefined field); the JavaScript
falsiness check on js_code also fires on the empty string; `codeThrows`
abstracts whether the supplied code throws when executed in strict mode. -/
def jsRunnerHandler (jsCode : Option String) (codeThrows : Bool) :
    JsRunnerOutcome :=
  match jsCode with
  | none => .errorRequired
  | some c =>
      if c = "" then .errorRequired
      else if 100000 < c.length then .errorTooLarge
      else if codeThrows then .errorExecution
      else .okTrue

/-- The handler rejected before executing the supplied code. -/
def JsRunnerOutcome.isGuardError : JsRunnerOutcome → Bool
  | .errorRequired => true
  | .errorTooLarge => true
  | _ => false

/-- C9 counterexample: the empty string is a present js_code field of
length 0, not above the 100000-character limit, so by the claim the
handler should execute it; instead the falsiness check rejects it without
executing anything. -/
theorem jsRunner_empty_code_counterexample :
    (jsRunnerHandler (some "") false).isGuardError = true ∧
    ¬((some "" : Option String) = none ∨ 100000 < ("" : String).length) := by
  decide

/-- C9 (amended): the handler throws without executing anything exactly
when js_code is absent, empty, or longer than 100000 characters; otherwise
it executes the supplied code and resolves to ok exactly when that code
does not throw. -/
theorem jsRunner_guard_spec (jsCode : Option String) (codeThrows : Bool) :
    ((jsRunnerHandler jsCode codeThrows).isGuardError = true ↔
      jsCode = none ∨ jsCode = some "" ∨ 100000 < (jsCode.getD "").length) ∧
    (¬(jsCode = none ∨ jsCode = some "" ∨
        100000 < (jsCode.getD "").length) →
      (jsRunnerHandler jsCode codeThrows = .okTrue ↔ codeThrows = false)) := by
  cases jsCode with
  | none => simp [jsRunnerHandler, JsRunnerOutcome.isGuardError]
  | some c =>
      by_cases hc : c = ""
      · subst hc
        simp [jsRunnerHandler, JsRunnerOutcome.isGuardError]
      · by_cases hl : 100000 < c.length
        · simp [jsRunnerHandler, hc, hl, JsRunnerOutcome.isGuardError]
        · cases codeThrows <;>
            simp [jsRunnerHandler, hc, hl, JsRunnerOutcome.isGuardError]

/-- C9 witness: a concrete one-character program passes the guards, and
with a non-throwing execution the handler resolves to ok. -/
theorem jsRunner_guard_spec_witness :
    ¬((some "x" : Option String) = none ∨
        (some "x" : Option String) = some "" ∨
        100000 < ((some "x" : Option String).getD "").length) ∧
    (jsRunnerHandler (some "x") false = .okTrue ↔ false = false) :=
  ⟨by decide, (jsRunner_guard_spec (some "x") false).2 (by decide)⟩

/-- Shallow embedding of the Net Score line of the lineage page (route
/lineage of the dashboard sources): the line is rendered only when
`model.scores?.net_score` is truthy; the scores object may be absent, the
net_score field may be absent, and a numeric JavaScript value is falsy
exactly when it is zero.  The result is the displayed value, `none` when
the line is not rendered. -/
def renderedNetScoreLine (scores : Option (Option ℚ)) : Option ℚ :=
  match scores with
  | some (some v) => if v = 0 then none else some v
  | _ => none

/-- C10: the lineage page renders the Net Score line only when
scores.net_score is truthy, so a model whose net score is exactly 0 (the
neutral score) is displayed identically to a model with no score at all. -/
theorem netScore_zero_render :
    (∀ sc v, renderedNetScoreLine sc = some v →
      v ≠ 0 ∧ sc = some (some v)) ∧
    (∀ v : ℚ, v ≠ 0 → renderedNetScoreLine (some (some v)) = some v) ∧
    renderedNetScoreLine (some (some 0)) = none ∧
    renderedNetScoreLine (some none) = none ∧
    renderedNetScoreLine none = none ∧
    renderedNetScoreLine (some (some 0)) = renderedNetScoreLine none := by
  refine ⟨?_, ?_, rfl, rfl, rfl, rfl⟩
  · intro sc v h
    match sc with
    | none => cases h
    | some none => cases h
    | some (some w) =>
        simp only [renderedNetScoreLine] at h
        by_cases hw : w = 0
        · rw [if_pos hw] at h
          cases h
        · rw [if_neg hw] at h
          cases h
          exact ⟨hw, rfl⟩
  · intro v hv
    simp only [renderedNetScoreLine]
    rw [if_neg hv]

/-- C10 witness: a nonzero net score of 1 is rendered as 1. -/
theorem netScore_zero_render_witness :
    ((1 : ℚ) ≠ 0) ∧ renderedNetScoreLine (some (some 1)) = some 1 :=
  ⟨one_ne_zero, netScore_zero_render.2.1 1 one_ne_zero⟩

end ModelGuard
